import Mathlib

/-!
Verification development for the fix-peer-deps package (sudsarkar13/packages).

The development shallowly embeds the dependency-analysis core of
src/fix-peer-deps/index.js (v1.1.12) together with the two earlier
revisions of the same command shipped in the repository
(src/unnamed/part_001, v1.1.7, and src/unnamed/part_002, v1.1.0).
JavaScript objects are modelled as association lists in key order,
JS Set values as insertion-ordered duplicate-free lists, and the
node-semver library calls used by the code are modelled by executable
Lean functions restricted to plain numeric major.minor.patch versions
(no prerelease or build metadata) and the range syntax the analysis
encounters (caret, tilde, primitive comparators, space conjunction,
double-bar disjunction, star).
-/

set_option linter.unusedVariables false

namespace FixPeerDeps

/-- Semantic version as a major-minor-patch triple of naturals. -/
structure SemVersion where
  major : Nat
  minor : Nat
  patch : Nat
deriving DecidableEq

/-- Lexicographic strict order on versions, as node-semver compares them. -/
def verLt (a b : SemVersion) : Bool :=
  if a.major ≠ b.major then decide (a.major < b.major)
  else if a.minor ≠ b.minor then decide (a.minor < b.minor)
  else decide (a.patch < b.patch)

/-- One primitive semver comparator. -/
inductive Comparator where
  | any
  | eq (v : SemVersion)
  | lt (v : SemVersion)
  | le (v : SemVersion)
  | gt (v : SemVersion)
  | ge (v : SemVersion)
deriving DecidableEq

/-- Does version `v` satisfy one comparator. -/
def satComparator (v : SemVersion) : Comparator → Bool
  | .any => true
  | .eq w => decide (v = w)
  | .lt w => verLt v w
  | .le w => verLt v w || decide (v = w)
  | .gt w => verLt w v
  | .ge w => verLt w v || decide (v = w)

/-- A parsed range: a disjunction of conjunctions of comparators. -/
abbrev RangeD := List (List Comparator)

/-- Range satisfaction: some comparator set has all comparators satisfied. -/
def satisfiesRange (v : SemVersion) (r : RangeD) : Bool :=
  r.any fun conj => conj.all fun c => satComparator v c

/-- Decimal value of a digit string. -/
def digitsToNat (ds : List Char) : Nat :=
  ds.foldl (fun n c => n * 10 + (c.toNat - 48)) 0

/-- Parse a decimal numeral from the front of `l`; leading zeros are
rejected, matching strict semver numeric identifiers. -/
def parseNum (l : List Char) : Option (Nat × List Char) :=
  let ds := l.takeWhile Char.isDigit
  let rest := l.dropWhile Char.isDigit
  if ds = [] then none
  else if ds.head? = some '0' ∧ 1 < ds.length then none
  else some (digitsToNat ds, rest)

/-- Parse exactly `major.minor.patch` with nothing left over. -/
def parseVersionCore (l : List Char) : Option SemVersion :=
  match parseNum l with
  | none => none
  | some (maj, r1) =>
    if r1.head? = some '.' then
      match parseNum r1.tail with
      | none => none
      | some (mnr, r3) =>
        if r3.head? = some '.' then
          match parseNum r3.tail with
          | none => none
          | some (pat, r5) =>
            if r5 = [] then some ⟨maj, mnr, pat⟩ else none
        else none
    else none

/-- Whitespace recognised by the trimming the semver library performs. -/
def isWhitespaceChar (c : Char) : Bool :=
  c = ' ' || c = '\t' || c = '\n' || c = '\r'

/-- Trim whitespace from both ends of a character list. -/
def trimChars (l : List Char) : List Char :=
  ((l.dropWhile isWhitespaceChar).reverse.dropWhile isWhitespaceChar).reverse

/-- Drop one optional leading letter v, as the semver version regex allows. -/
def dropLeadingV (l : List Char) : List Char :=
  match l with
  | c :: rest => if c = 'v' then rest else c :: rest
  | [] => []

/-- Model of the node-semver version parser on the numeric grammar. -/
def parseVersion (s : String) : Option SemVersion :=
  parseVersionCore (dropLeadingV (trimChars s.data))

/-- Model of semver.clean: trim, strip leading `=` and `v` characters, and
return the cleaned text when it is a valid version, otherwise nothing. -/
def semverClean (s : String) : Option String :=
  let l := (trimChars s.data).dropWhile fun c => c = '=' || c = 'v'
  match parseVersionCore l with
  | some _ => some (String.mk l)
  | none => none

/-- Exclusive upper bound of a caret range. -/
def caretUpper (v : SemVersion) : SemVersion :=
  if v.major ≠ 0 then ⟨v.major + 1, 0, 0⟩
  else if v.minor ≠ 0 then ⟨0, v.minor + 1, 0⟩
  else ⟨0, 0, v.patch + 1⟩

/-- Parse one range token into its comparator list. -/
def parseComparator (t : List Char) : Option (List Comparator) :=
  match t with
  | ['*'] => some [.any]
  | '^' :: r => (parseVersionCore (dropLeadingV r)).map fun v =>
      [.ge v, .lt (caretUpper v)]
  | '~' :: r => (parseVersionCore (dropLeadingV r)).map fun v =>
      [.ge v, .lt ⟨v.major, v.minor + 1, 0⟩]
  | '>' :: '=' :: r => (parseVersionCore (dropLeadingV r)).map fun v => [.ge v]
  | '<' :: '=' :: r => (parseVersionCore (dropLeadingV r)).map fun v => [.le v]
  | '>' :: r => (parseVersionCore (dropLeadingV r)).map fun v => [.gt v]
  | '<' :: r => (parseVersionCore (dropLeadingV r)).map fun v => [.lt v]
  | '=' :: r => (parseVersionCore (dropLeadingV r)).map fun v => [.eq v]
  | r => (parseVersionCore (dropLeadingV r)).map fun v => [.eq v]

/-- Split a character list into maximal whitespace-free words. -/
def wordsAux (l : List Char) (acc : List Char) : List (List Char) :=
  match l with
  | [] => if acc = [] then [] else [acc.reverse]
  | c :: cs =>
    if isWhitespaceChar c then
      if acc = [] then wordsAux cs [] else acc.reverse :: wordsAux cs []
    else wordsAux cs (c :: acc)

/-- Parse one disjunct of a range: a whitespace-separated comparator list.
An empty disjunct is the empty conjunction and matches every version,
as the empty range does in node-semver. -/
def parseRangePart (part : List Char) : Option (List Comparator) :=
  (wordsAux part []).foldr
    (fun t acc =>
      match parseComparator t, acc with
      | some cs, some rest => some (cs ++ rest)
      | _, _ => none)
    (some [])

/-- Split a character list at each occurrence of a double bar. -/
def splitOrs : List Char → List (List Char)
  | [] => [[]]
  | '|' :: '|' :: rest => [] :: splitOrs rest
  | c :: rest =>
    match splitOrs rest with
    | [] => [[c]]
    | g :: gs => (c :: g) :: gs

/-- Model of the node-semver range parser on the supported syntax;
`none` models the Range constructor throwing on invalid input. -/
def parseRange (s : String) : Option RangeD :=
  (splitOrs s.data).foldr
    (fun part acc =>
      match parseRangePart part, acc with
      | some c, some r => some (c :: r)
      | _, _ => none)
    (some [])

/-- Model of semver.satisfies(version, range): `none` models the throw on
an invalid range; an invalid version yields `false`. -/
def semverSatisfies (version range : String) : Option Bool :=
  match parseRange range with
  | none => none
  | some r =>
    some (match parseVersion version with
      | none => false
      | some v => satisfiesRange v r)

/-- Leading digit run of `l` as a number together with the remainder. -/
def takeLeadingDigits (l : List Char) : Nat × List Char :=
  (digitsToNat (l.takeWhile Char.isDigit), l.dropWhile Char.isDigit)

/-- Read up to three dot-separated numbers starting at a digit, missing
components defaulting to zero, as semver.coerce extracts them. -/
def coerceAt (l : List Char) : SemVersion :=
  let p1 := takeLeadingDigits l
  match p1.2 with
  | '.' :: r2 =>
    if r2.takeWhile Char.isDigit = [] then ⟨p1.1, 0, 0⟩
    else
      let p2 := takeLeadingDigits r2
      match p2.2 with
      | '.' :: r4 =>
        if r4.takeWhile Char.isDigit = [] then ⟨p1.1, p2.1, 0⟩
        else ⟨p1.1, p2.1, (takeLeadingDigits r4).1⟩
      | _ => ⟨p1.1, p2.1, 0⟩
  | _ => ⟨p1.1, 0, 0⟩

/-- Scan for the first digit and coerce from there. -/
def semverCoerceChars : List Char → Option SemVersion
  | [] => none
  | c :: cs => if c.isDigit then some (coerceAt (c :: cs)) else semverCoerceChars cs

/-- Model of semver.coerce: extract the first version-like number group,
or nothing when the string holds no digit at all. -/
def semverCoerce (s : String) : Option SemVersion :=
  semverCoerceChars s.data

/-- Catalog entry of the v1.1.12 analysis: the installed version string and
the optional peer-requirement map fetched for the package. -/
structure DepInfo where
  version : String
  peerDependencies : Option (List (String × String)) := none
deriving DecidableEq

/-- The three dependency kinds of the v1.1.12 catalog, in object key order. -/
structure Dependencies where
  dependencies : List (String × DepInfo) := []
  devDependencies : List (String × DepInfo) := []
  peerDependencies : List (String × DepInfo) := []
deriving DecidableEq

/-- The kinds in the iteration order of Object.values / Object.entries. -/
def Dependencies.kinds (d : Dependencies) : List (List (String × DepInfo)) :=
  [d.dependencies, d.devDependencies, d.peerDependencies]

/-- Model of findInstalledVersion (index.js lines 170-177): first matching
entry across the three kinds, in declaration order. -/
def findInstalledVersion (d : Dependencies) (name : String) : Option String :=
  (d.kinds.findSome? fun depType => List.lookup name depType).map
    fun info => info.version

/-- Model of checkVersion (index.js lines 159-167): clean the installed
string, fall back to the raw string, then satisfies; a throw inside the
try block yields false. The `name` argument is used only for logging. -/
def checkVersion (name required installed : String) : Bool :=
  let cleanInstalled := (semverClean installed).getD installed
  (semverSatisfies cleanInstalled required).getD false

/-- Raw issue of the v1.1.12 analysis: an entry for the missing set or an
entry for the version-conflict set, both plain strings as in the code. -/
inductive RawIssue where
  | missing (entry : String)
  | conflict (entry : String)
deriving DecidableEq

/-- Decision for one (consumer, peer, requiredVersion) triple, exactly the
body of the inner loop of analyzePeerDependencies (index.js lines 187-197).
A found but empty version string is falsy in JS and counts as missing. -/
def peerCheck (d : Dependencies) (name peerName requiredVersion : String) :
    Option RawIssue :=
  match findInstalledVersion d peerName with
  | none => some (.missing (peerName ++ "@" ++ requiredVersion))
  | some installedVersion =>
    if installedVersion = "" then
      some (.missing (peerName ++ "@" ++ requiredVersion))
    else if checkVersion peerName requiredVersion installedVersion then none
    else
      some (.conflict (name ++ " requires " ++ peerName ++ "@" ++
        requiredVersion ++ ", but " ++ installedVersion ++ " is installed"))

/-- Issues contributed by one catalog entry (index.js lines 186-198); an
entry without a fetched peer map contributes nothing. -/
def analyzeEntry (d : Dependencies) (name : String) (info : DepInfo) :
    List RawIssue :=
  match info.peerDependencies with
  | none => []
  | some peers => peers.filterMap fun pr => peerCheck d name pr.1 pr.2

/-- All raw issues in loop order over the three kinds (index.js 180-200). -/
def rawIssues (d : Dependencies) : List RawIssue :=
  ((d.dependencies ++ d.devDependencies ++ d.peerDependencies).map
    fun ni => analyzeEntry d ni.1 ni.2).flatten

/-- JS Set insertion: append unless already present. -/
def setAdd (s : List String) (x : String) : List String :=
  if x ∈ s then s else s ++ [x]

/-- Insertion-ordered deduplication, the contents of a JS Set of strings. -/
def dedupFirst (l : List String) : List String :=
  l.foldl setAdd []

/-- Code-unit comparison of strings, the default JS sort comparator. -/
def charListLe : List Char → List Char → Bool
  | [], _ => true
  | _ :: _, [] => false
  | a :: as, b :: bs => if a = b then charListLe as bs else decide (a < b)

/-- String order used by Array.prototype.sort with no comparator. -/
def strLe (a b : String) : Bool :=
  charListLe a.data b.data

/-- Insert into a sorted list, keeping order. -/
def insertSorted (x : String) : List String → List String
  | [] => [x]
  | y :: ys => if strLe x y then x :: y :: ys else y :: insertSorted x ys

/-- Model of Array.prototype.sort on strings: stable sort by code units. -/
def sortStrings (l : List String) : List String :=
  l.foldr insertSorted []

/-- Result of the v1.1.12 analysis (index.js lines 217-221). -/
structure AnalysisResult where
  missingDeps : List String
  versionConflicts : List String
  hasIssues : Bool
deriving DecidableEq

/-- Missing-set entry of a raw issue, when it is one. -/
def RawIssue.missingEntry? : RawIssue → Option String
  | .missing s => some s
  | .conflict _ => none

/-- Conflict-set entry of a raw issue, when it is one. -/
def RawIssue.conflictEntry? : RawIssue → Option String
  | .conflict s => some s
  | .missing _ => none

/-- Model of analyzePeerDependencies (index.js lines 144-226): collect the
raw issues, keep each distinct string once in insertion order (the two JS
Sets), sort both lists, and report whether anything was found. -/
def analyzePeerDependencies (d : Dependencies) : AnalysisResult :=
  let raw := rawIssues d
  let uniqueMissingDeps :=
    sortStrings (dedupFirst (raw.filterMap RawIssue.missingEntry?))
  let uniqueVersionConflicts :=
    sortStrings (dedupFirst (raw.filterMap RawIssue.conflictEntry?))
  { missingDeps := uniqueMissingDeps
    versionConflicts := uniqueVersionConflicts
    hasIssues := decide (0 < uniqueMissingDeps.length) ||
      decide (0 < uniqueVersionConflicts.length) }

/-- Model of the JavaScript split method with a one-character separator:
maximal separator-free groups, keeping empty groups. -/
def jsSplitChars (sep : Char) : List Char → List (List Char)
  | [] => [[]]
  | c :: cs =>
    if c = sep then [] :: jsSplitChars sep cs
    else
      match jsSplitChars sep cs with
      | [] => [[c]]
      | g :: gs => (c :: g) :: gs

/-- First component of `dep.split(sep)` as a string. -/
def splitName (dep : String) : String :=
  String.mk ((jsSplitChars '@' dep.data).headD [])

/-- Second component of `dep.split(sep)`, when present. -/
def splitSecond (dep : String) : Option String :=
  ((jsSplitChars '@' dep.data)[1]?).map String.mk

/-- Model of the specifier re-parsing in autoFix (index.js lines 320-327):
split the stored string at `@`, rebuild `name@version` when the version
part is truthy, and drop the result when it is the empty string (the
filter(Boolean) step). -/
def parseSpec (dep : String) : Option String :=
  let parts := jsSplitChars '@' dep.data
  let name := String.mk (parts.headD [])
  let result :=
    match parts[1]? with
    | some v => if v ≠ [] then name ++ "@" ++ String.mk v else name
    | none => name
  if result = "" then none else some result

/-- A JavaScript value holding an install command: either a plain string
(as in the v1.1.12 table) or an object with cmd and args fields (as in
the v1.1.7 table). -/
inductive JsCommand where
  | str (s : String)
  | obj (cmd : String) (args : List String) (verifyCmd : String)
      (verifyArgs : List String)
deriving DecidableEq

/-- Property access `command.cmd`: undefined on a plain string. -/
def JsCommand.cmdProp : JsCommand → Option String
  | .str _ => none
  | .obj c _ _ _ => some c

/-- Property access `command.args`: undefined on a plain string. -/
def JsCommand.argsProp : JsCommand → Option (List String)
  | .str _ => none
  | .obj _ a _ _ => some a

/-- The v1.1.12 command table (index.js lines 335-340): plain strings. -/
def commandTable : List (String × String) :=
  [("npm", "npm install"), ("yarn", "yarn add"),
   ("pnpm", "pnpm add"), ("bun", "bun add")]

/-- Command selection of v1.1.12 autoFix, with the npm fallback. -/
def selectCommand (packageManager : String) : JsCommand :=
  .str ((List.lookup packageManager commandTable).getD "npm install")

/-- Prefix test on character lists. -/
def isPrefixChars : List Char → List Char → Bool
  | [], _ => true
  | _ :: _, [] => false
  | a :: as, b :: bs => decide (a = b) && isPrefixChars as bs

/-- Substring test on character lists. -/
def includesChars (pat : List Char) : List Char → Bool
  | [] => pat.isEmpty
  | c :: cs => isPrefixChars pat (c :: cs) || includesChars pat cs

/-- Model of the JavaScript includes method on strings. -/
def strIncludes (s pat : String) : Bool :=
  includesChars pat.data s.data

/-- Outcome of the install phase of autoFix. -/
inductive InstallStepResult where
  | success
  | fatalError
deriving DecidableEq

/-- Model of the v1.1.12 install attempt with retry (index.js lines
343-358). `exec` tells whether a given invocation succeeds. When
`command` is a plain string, `command.cmd` and `command.args` are
undefined: spreading undefined args throws before execa runs, the catch
retries, the retry reads `command.args` again and throws again, and the
rethrown error makes the step fatal; an undefined cmd makes execa reject
on both attempts likewise. -/
def autoFixInstall (exec : String → List String → Bool) (command : JsCommand)
    (depsToInstall : List String) : InstallStepResult :=
  match command.cmdProp, command.argsProp with
  | some cmd, some args =>
    if exec cmd (args ++ depsToInstall) then .success
    else
      let baseArgs := args.filter fun arg => !(strIncludes arg "peer")
      if exec cmd (baseArgs ++ depsToInstall) then .success else .fatalError
  | _, _ => .fatalError

/-- Model of v1.1.12 autoFix up to the install step (index.js lines
307-358): early return when there is nothing to fix or nothing parses to
an installable specifier, otherwise the install attempt with retry. -/
def autoFixStep (exec : String → List String → Bool) (packageManager : String)
    (missingDeps : List String) : InstallStepResult :=
  if missingDeps = [] then .success
  else
    let depsToInstall := missingDeps.filterMap parseSpec
    if depsToInstall = [] then .success
    else autoFixInstall exec (selectCommand packageManager) depsToInstall

/-- The IGNORE_PATTERNS constant (index.js lines 13-17): the three regexes
are plain prefix tests on the scope. -/
def ignorePatterns : List String :=
  ["@types/", "@babel/", "@eslint/"]

/-- Does a peer name match the ignore denylist: each of the three
regexes anchors at the start, so it is a prefix test. -/
def matchesIgnorePattern (name : String) : Bool :=
  ignorePatterns.any fun p => isPrefixChars p.data name.data

/-- The OPTIONAL_DEPS constant (index.js lines 19-23). -/
def optionalDeps : List String :=
  ["supports-color", "encoding", "ts-node"]

/-- Manifest shape shared by analyzeDependencies and getDependencies:
the three dependency maps of package.json, each possibly absent. -/
structure PackageJson where
  dependencies : Option (List (String × String)) := none
  devDependencies : Option (List (String × String)) := none
  peerDependencies : Option (List (String × String)) := none
deriving DecidableEq

/-- The deps set of analyzeDependencies (index.js lines 229-244):
`name@version` strings over all three kinds, in insertion order. -/
def buildDeps (pj : PackageJson) : List String :=
  ((pj.dependencies.getD []) ++ (pj.devDependencies.getD []) ++
    (pj.peerDependencies.getD [])).foldl
    (fun s nv => setAdd s (nv.1 ++ "@" ++ nv.2)) []

/-- Version-conflict record of analyzeDependencies (index.js 284-289). -/
structure ConflictRecord where
  package : String
  peer : String
  required : String
  installed : String
deriving DecidableEq

/-- The find over the deps set (index.js lines 271-274): first stored
string whose part before the first `@` equals the peer name. -/
def findInstalledPeerDep (deps : List String) (peerName : String) :
    Option String :=
  deps.find? fun d => splitName d == peerName

/-- Model of the peer loop of analyzeDependencies (index.js lines
270-292). Missing peers go to the string set; present peers are coerced
on both sides and only a pair where both coercions succeed and the
coerced installed version fails the required range yields a conflict
record; a failed coercion on either side yields nothing. An invalid
required range makes semver.satisfies throw, which aborts the remaining
peers of this dependency (the outer catch swallows the error). -/
def procPeers (deps : List String) (name : String) :
    List (String × String) → List String → List ConflictRecord →
    List String × List ConflictRecord
  | [], miss, conf => (miss, conf)
  | (peerName, requiredVersion) :: rest, miss, conf =>
    match findInstalledPeerDep deps peerName with
    | none =>
      procPeers deps name rest
        (setAdd miss (peerName ++ "@" ++ requiredVersion)) conf
    | some installedPeerDep =>
      match splitSecond installedPeerDep with
      | none => procPeers deps name rest miss conf
      | some installedVersion =>
        match semverCoerce installedVersion, semverCoerce requiredVersion with
        | some cleanInstalled, some _ =>
          match parseRange requiredVersion with
          | none => (miss, conf)
          | some r =>
            if satisfiesRange cleanInstalled r then
              procPeers deps name rest miss conf
            else
              procPeers deps name rest miss
                (conf ++ [{ package := name, peer := peerName,
                            required := requiredVersion,
                            installed := installedVersion }])
        | _, _ => procPeers deps name rest miss conf

/-- Model of analyzeDependencies (index.js lines 228-305). `fs` models
reading `node_modules/<name>/package.json`: the outer Option is whether
the read and parse succeed, the inner one whether the file declares
peerDependencies. The node_modules bootstrap install is outside the
model, which assumes the directory exists. -/
def analyzeDependencies
    (fs : String → Option (Option (List (String × String))))
    (pj : PackageJson) : List String × List ConflictRecord :=
  let deps := buildDeps pj
  deps.foldl
    (fun acc dep =>
      let name := splitName dep
      match fs name with
      | none => acc
      | some none => acc
      | some (some peers) => procPeers deps name peers acc.1 acc.2)
    ([], [])

/-- Model of `version.replace(/^\e|~/, ...)` as written in index.js line
115 with a caret in place of `\e`: remove a caret at the start, or
otherwise the first tilde anywhere. -/
def removeFirstTilde : List Char → List Char
  | [] => []
  | '~' :: rest => rest
  | c :: rest => c :: removeFirstTilde rest

/-- The version normalization of getDependencies (index.js line 115). -/
def stripCaretTilde (s : String) : String :=
  match s.data with
  | '^' :: rest => String.mk rest
  | l => String.mk (removeFirstTilde l)

/-- Model of the processDeps helper (index.js lines 112-129): map every
declared entry to its normalized version; only under yarn is the peer
map fetched, and a failed fetch (meta returns nothing) leaves the peer
map unset while the run continues. -/
def processDeps (packageManager : String)
    (meta : String → Option (List (String × String)))
    (deps : Option (List (String × String))) : List (String × DepInfo) :=
  match deps with
  | none => []
  | some l =>
    l.map fun nv =>
      (nv.1,
        { version := stripCaretTilde nv.2,
          peerDependencies :=
            if packageManager = "yarn" then meta nv.1 else none })

/-- The catalog getDependencies builds from a readable manifest. -/
def loadCatalog (packageManager : String)
    (meta : String → Option (List (String × String)))
    (pj : PackageJson) : Dependencies :=
  { dependencies := processDeps packageManager meta pj.dependencies
    devDependencies := processDeps packageManager meta pj.devDependencies
    peerDependencies := processDeps packageManager meta pj.peerDependencies }

/-- Model of getDependencies (index.js lines 97-142): an unreadable or
unparsable manifest throws out of the function; anything else yields the
catalog. -/
def getDependencies (packageManager : String)
    (meta : String → Option (List (String × String)))
    (manifest : Option PackageJson) : Except Unit Dependencies :=
  match manifest with
  | none => .error ()
  | some pj => .ok (loadCatalog packageManager meta pj)

/-- Replace the peer map of every entry named `p` by the unset map. -/
def degradeEntry (p : String) (e : String × DepInfo) : String × DepInfo :=
  if e.1 = p then (e.1, { e.2 with peerDependencies := none }) else e

/-- Catalog with the peer set of package `p` degraded to empty. -/
def degradeCatalog (p : String) (d : Dependencies) : Dependencies :=
  { dependencies := d.dependencies.map (degradeEntry p)
    devDependencies := d.devDependencies.map (degradeEntry p)
    peerDependencies := d.peerDependencies.map (degradeEntry p) }

/-- Modelled from the spec: the range derived from an installed version
when checking overlap is its caret range, the conventional derivation
for a semver intersects test. Used only to state what the specification
text of section 4.2 calls intersection. -/
def specDerivedRange (v : SemVersion) : RangeD :=
  [[.ge v, .lt (caretUpper v)]]

/-- Modelled from the spec: two ranges intersect when some version
satisfies both. -/
def specIntersects (r1 r2 : RangeD) : Prop :=
  ∃ v, satisfiesRange v r1 ∧ satisfiesRange v r2

end FixPeerDeps

namespace V117

open FixPeerDeps

/-- The v1.1.7 command table (src/unnamed/part_001 lines 271-296):
proper objects with cmd and args fields. -/
def commands : List (String × JsCommand) :=
  [("npm", .obj "npm" ["install", "--save-peer", "--legacy-peer-deps"]
      "npm" ["ls", "--json"]),
   ("yarn", .obj "yarn" ["add", "--legacy-peer-deps"]
      "yarn" ["list", "--json"]),
   ("pnpm", .obj "pnpm" ["add", "--save-peer"]
      "pnpm" ["list", "--json"]),
   ("bun", .obj "bun" ["add"] "bun" ["pm", "ls", "--json"])]

/-- The peer-flag relaxation of the retry (part_001 line 312 and
index.js line 351): drop every argument whose text contains peer. -/
def relaxArgs (args : List String) : List String :=
  args.filter fun arg => !(strIncludes arg "peer")

/-- Outcome of the install-with-retry block. -/
inductive InstallOutcome where
  | okFirst
  | okRetry
  | fatal
deriving DecidableEq

/-- Model of the install block of v1.1.7 autoFix (part_001 lines
303-319): one attempt with the full flag set, on failure exactly one
retry with the relaxed flags, and a second failure rethrows fatally. -/
def installWithRetry (exec : String → List String → Bool) (cmd : String)
    (args depsToInstall : List String) : InstallOutcome :=
  if exec cmd (args ++ depsToInstall) then .okFirst
  else if exec cmd (relaxArgs args ++ depsToInstall) then .okRetry
  else .fatal

/-- The exact sequence of argument lists handed to execa by the install
block, in order. -/
def installAttempts (exec : String → List String → Bool) (cmd : String)
    (args depsToInstall : List String) : List (List String) :=
  if exec cmd (args ++ depsToInstall) then [args ++ depsToInstall]
  else [args ++ depsToInstall, relaxArgs args ++ depsToInstall]

end V117

namespace V110

open FixPeerDeps

/-- Issue record of the v1.1.0 analysis (src/unnamed/part_002 lines
140-146). -/
structure Issue where
  packageName : String
  peer : String
  required : String
  current : String
  isOptional : Bool
deriving DecidableEq

/-- Catalog entry of the v1.1.0 analysis: version plus peer map. -/
structure P2DepInfo where
  version : String
  peerDependencies : Option (List (String × String)) := none
deriving DecidableEq

/-- Install specifier of v1.1.0 autoFix (part_002 line 189). -/
def spec (i : Issue) : String :=
  i.peer ++ "@\"" ++ i.required ++ "\""

/-- The chunk size of the install loop (part_002 line 192). -/
def chunkSize : Nat := 10

/-- Slicing loop with explicit fuel; the loop advances by chunkSize, so
fuel at least the list length always suffices. -/
def chunksAux {α : Type} : Nat → List α → List (List α)
  | _, [] => []
  | 0, _ :: _ => []
  | fuel + 1, x :: xs =>
    ((x :: xs).take chunkSize) :: chunksAux fuel ((x :: xs).drop chunkSize)

/-- Model of the slicing loop of part_002 lines 193-197: successive
slices of ten specifiers. -/
def chunksOf {α : Type} (l : List α) : List (List α) :=
  chunksAux l.length l

/-- The specifier list v1.1.0 autoFix installs (part_002 line 189):
one per critical, that is non-optional, issue, in issue order. -/
def depsToInstall (issues : List Issue) : List String :=
  (issues.filter fun i => !i.isOptional).map spec

/-- The batches the install loop issues, in order. -/
def batches (issues : List Issue) : List (List String) :=
  chunksOf (depsToInstall issues)

/-- Model of the sequential batch loop with an execution oracle: run
batches in order, stop at the first failure (the throw aborts the
loop), and return the batches that succeeded together with whether the
loop completed. Succeeded batches stay installed; nothing undoes them. -/
def runBatches (exec : List String → Bool) :
    List (List String) → List (List String) × Bool
  | [] => ([], true)
  | b :: rest =>
    if exec b then
      let r := runBatches exec rest
      (b :: r.1, r.2)
    else ([], false)

/-- Model of the peer loop of the v1.1.0 analysis (part_002 lines
131-148): skip denylisted peers, tag allow-listed peers optional, and
record an issue when the peer is absent or its version fails the
required range; an invalid required range makes semver.satisfies throw
and the analysis die, modelled as no result. -/
def peerLoop (dependencies : List (String × P2DepInfo)) (name : String) :
    List (String × String) → Option (List Issue)
  | [] => some []
  | (peer, version) :: rest =>
    if matchesIgnorePattern peer then peerLoop dependencies name rest
    else
      let isOptional := optionalDeps.contains peer
      match List.lookup peer dependencies with
      | none =>
        (peerLoop dependencies name rest).map fun r =>
          { packageName := name, peer := peer, required := version,
            current := "missing", isOptional := isOptional } :: r
      | some peerInfo =>
        match parseRange version with
        | none => none
        | some r =>
          let sat :=
            match parseVersion peerInfo.version with
            | some v => satisfiesRange v r
            | none => false
          if sat then peerLoop dependencies name rest
          else
            (peerLoop dependencies name rest).map fun rst =>
              { packageName := name, peer := peer, required := version,
                current :=
                  if peerInfo.version = "" then "missing"
                  else peerInfo.version,
                isOptional := isOptional } :: rst

/-- Entry loop of the v1.1.0 analysis (part_002 lines 129-151). -/
def entryLoop (dependencies : List (String × P2DepInfo)) :
    List (String × P2DepInfo) → Option (List Issue)
  | [] => some []
  | (name, info) :: rest =>
    let here :=
      match info.peerDependencies with
      | none => some []
      | some peers => peerLoop dependencies name peers
    match here with
    | none => none
    | some hs => (entryLoop dependencies rest).map fun r => hs ++ r

/-- The issue list of the v1.1.0 analysis over a catalog. -/
def analyzeIssues (dependencies : List (String × P2DepInfo)) :
    Option (List Issue) :=
  entryLoop dependencies dependencies

end V110

namespace FixPeerDeps

/-! Support lemmas about the JS Set and sort models. -/

theorem mem_setAdd {s : List String} {x y : String} :
    y ∈ setAdd s x ↔ y ∈ s ∨ y = x := by
  unfold setAdd
  by_cases h : x ∈ s
  · simp only [if_pos h]
    constructor
    · exact Or.inl
    · rintro (hy | rfl)
      · exact hy
      · exact h
  · simp [if_neg h]

theorem mem_foldl_setAdd {y : String} :
    ∀ (l acc : List String), y ∈ l.foldl setAdd acc ↔ y ∈ acc ∨ y ∈ l := by
  intro l
  induction l with
  | nil => simp
  | cons x xs ih =>
    intro acc
    simp only [List.foldl_cons, ih, mem_setAdd, List.mem_cons]
    tauto

theorem mem_dedupFirst {y : String} {l : List String} :
    y ∈ dedupFirst l ↔ y ∈ l := by
  unfold dedupFirst
  rw [mem_foldl_setAdd]
  simp

theorem nodup_setAdd {s : List String} {x : String} (h : s.Nodup) :
    (setAdd s x).Nodup := by
  unfold setAdd
  by_cases hx : x ∈ s
  · simpa [if_pos hx]
  · rw [if_neg hx, List.nodup_append]
    refine ⟨h, List.nodup_singleton x, ?_⟩
    intro a ha hax
    rw [List.mem_singleton] at hax
    subst hax
    exact hx ha

theorem nodup_foldl_setAdd :
    ∀ (l acc : List String), acc.Nodup → (l.foldl setAdd acc).Nodup := by
  intro l
  induction l with
  | nil => intro acc h; simpa
  | cons x xs ih =>
    intro acc h
    exact ih (setAdd acc x) (nodup_setAdd h)

theorem nodup_dedupFirst (l : List String) : (dedupFirst l).Nodup :=
  nodup_foldl_setAdd l [] List.nodup_nil

theorem perm_insertSorted (x : String) (l : List String) :
    List.Perm (insertSorted x l) (x :: l) := by
  induction l with
  | nil => exact List.Perm.refl _
  | cons y ys ih =>
    unfold insertSorted
    by_cases h : strLe x y
    · rw [if_pos h]
    · rw [if_neg h]
      exact List.Perm.trans (List.Perm.cons y ih) (List.Perm.swap x y ys)

theorem perm_sortStrings (l : List String) : List.Perm (sortStrings l) l := by
  induction l with
  | nil => exact List.Perm.refl _
  | cons x xs ih =>
    unfold sortStrings
    exact List.Perm.trans (perm_insertSorted x (xs.foldr insertSorted []))
      (List.Perm.cons x ih)

theorem mem_sortStrings {y : String} {l : List String} :
    y ∈ sortStrings l ↔ y ∈ l :=
  (perm_sortStrings l).mem_iff

theorem nodup_sortStrings {l : List String} (h : l.Nodup) :
    (sortStrings l).Nodup :=
  (perm_sortStrings l).nodup_iff.mpr h

/-! Support lemmas connecting one peer pair to the analysis output. -/

/-- All catalog entries in iteration order. -/
def allEntries (d : Dependencies) : List (String × DepInfo) :=
  d.dependencies ++ d.devDependencies ++ d.peerDependencies

theorem mem_rawIssues {d : Dependencies} {i : RawIssue} :
    i ∈ rawIssues d ↔
      ∃ e ∈ allEntries d, i ∈ analyzeEntry d e.1 e.2 := by
  unfold rawIssues allEntries
  rw [List.mem_flatten]
  constructor
  · rintro ⟨a, ha, hi⟩
    rw [List.mem_map] at ha
    obtain ⟨e, he, rfl⟩ := ha
    exact ⟨e, he, hi⟩
  · rintro ⟨e, he, hi⟩
    exact ⟨analyzeEntry d e.1 e.2, List.mem_map_of_mem _ he, hi⟩

theorem mem_analyzeEntry {d : Dependencies} {n : String} {info : DepInfo}
    {i : RawIssue} :
    i ∈ analyzeEntry d n info ↔
      ∃ peers, info.peerDependencies = some peers ∧
        ∃ pr ∈ peers, peerCheck d n pr.1 pr.2 = some i := by
  unfold analyzeEntry
  cases h : info.peerDependencies with
  | none => simp
  | some peers => simp [List.mem_filterMap]

theorem mem_missingDeps {d : Dependencies} {s : String} :
    s ∈ (analyzePeerDependencies d).missingDeps ↔
      ∃ e ∈ allEntries d, ∃ peers, e.2.peerDependencies = some peers ∧
        ∃ pr ∈ peers, peerCheck d e.1 pr.1 pr.2 = some (.missing s) := by
  show s ∈ sortStrings (dedupFirst
    ((rawIssues d).filterMap RawIssue.missingEntry?)) ↔ _
  rw [mem_sortStrings, mem_dedupFirst, List.mem_filterMap]
  constructor
  · rintro ⟨i, hi, hm⟩
    cases i with
    | missing t =>
      simp only [RawIssue.missingEntry?, Option.some.injEq] at hm
      subst hm
      rw [mem_rawIssues] at hi
      obtain ⟨e, he, hie⟩ := hi
      rw [mem_analyzeEntry] at hie
      obtain ⟨peers, hp, pr, hpr, hc⟩ := hie
      exact ⟨e, he, peers, hp, pr, hpr, hc⟩
    | conflict t => simp [RawIssue.missingEntry?] at hm
  · rintro ⟨e, he, peers, hp, pr, hpr, hc⟩
    refine ⟨.missing s, ?_, rfl⟩
    rw [mem_rawIssues]
    refine ⟨e, he, ?_⟩
    rw [mem_analyzeEntry]
    exact ⟨peers, hp, pr, hpr, hc⟩

theorem mem_versionConflicts {d : Dependencies} {s : String} :
    s ∈ (analyzePeerDependencies d).versionConflicts ↔
      ∃ e ∈ allEntries d, ∃ peers, e.2.peerDependencies = some peers ∧
        ∃ pr ∈ peers, peerCheck d e.1 pr.1 pr.2 = some (.conflict s) := by
  show s ∈ sortStrings (dedupFirst
    ((rawIssues d).filterMap RawIssue.conflictEntry?)) ↔ _
  rw [mem_sortStrings, mem_dedupFirst, List.mem_filterMap]
  constructor
  · rintro ⟨i, hi, hm⟩
    cases i with
    | conflict t =>
      simp only [RawIssue.conflictEntry?, Option.some.injEq] at hm
      subst hm
      rw [mem_rawIssues] at hi
      obtain ⟨e, he, hie⟩ := hi
      rw [mem_analyzeEntry] at hie
      obtain ⟨peers, hp, pr, hpr, hc⟩ := hie
      exact ⟨e, he, peers, hp, pr, hpr, hc⟩
    | missing t => simp [RawIssue.conflictEntry?] at hm
  · rintro ⟨e, he, peers, hp, pr, hpr, hc⟩
    refine ⟨.conflict s, ?_, rfl⟩
    rw [mem_rawIssues]
    refine ⟨e, he, ?_⟩
    rw [mem_analyzeEntry]
    exact ⟨peers, hp, pr, hpr, hc⟩

/-! Support lemmas about the version parser, used to relate checkVersion
to plain range satisfaction. -/

theorem parseNum_eq_some {l : List Char} {n : Nat} {rest : List Char}
    (h : parseNum l = some (n, rest)) :
    l.takeWhile Char.isDigit ≠ [] ∧ rest = l.dropWhile Char.isDigit := by
  simp only [parseNum] at h
  split at h
  · exact absurd h (by simp)
  · split at h
    · exact absurd h (by simp)
    · rename_i h1 h2
      rw [Option.some.injEq, Prod.mk.injEq] at h
      exact ⟨h1, h.2.symm⟩

theorem parseVersionCore_shape {l : List Char} {v : SemVersion}
    (h : parseVersionCore l = some v) :
    ∃ d1 d2 d3 : List Char,
      l = d1 ++ '.' :: (d2 ++ '.' :: d3) ∧ d1 ≠ [] ∧
      (∀ c ∈ d1, c.isDigit = true) ∧ (∀ c ∈ d2, c.isDigit = true) ∧
      (∀ c ∈ d3, c.isDigit = true) := by
  unfold parseVersionCore at h
  cases h1 : parseNum l with
  | none => rw [h1] at h; cases h
  | some p1 =>
    rw [h1] at h
    obtain ⟨maj, r1⟩ := p1
    dsimp only [] at h
    by_cases hh1 : r1.head? = some '.'
    case neg => rw [if_neg hh1] at h; cases h
    case pos =>
    rw [if_pos hh1] at h
    cases h2 : parseNum r1.tail with
    | none => rw [h2] at h; cases h
    | some p2 =>
      rw [h2] at h
      obtain ⟨mnr, r3⟩ := p2
      dsimp only [] at h
      by_cases hh2 : r3.head? = some '.'
      case neg => rw [if_neg hh2] at h; cases h
      case pos =>
      rw [if_pos hh2] at h
      cases h3 : parseNum r3.tail with
      | none => rw [h3] at h; cases h
      | some p3 =>
        rw [h3] at h
        obtain ⟨pat, r5⟩ := p3
        dsimp only [] at h
        by_cases hr5 : r5 = []
        case neg => rw [if_neg hr5] at h; cases h
        case pos =>
        obtain ⟨hne1, hrest1⟩ := parseNum_eq_some h1
        obtain ⟨hne2, hrest2⟩ := parseNum_eq_some h2
        obtain ⟨hne3, hrest3⟩ := parseNum_eq_some h3
        have hr1 : r1 = '.' :: r1.tail := by
          cases r1 with
          | nil => simp at hh1
          | cons a as =>
            simp only [List.head?_cons, Option.some.injEq] at hh1
            subst hh1
            rfl
        have hr3 : r3 = '.' :: r3.tail := by
          cases r3 with
          | nil => simp at hh2
          | cons a as =>
            simp only [List.head?_cons, Option.some.injEq] at hh2
            subst hh2
            rfl
        refine ⟨l.takeWhile Char.isDigit, r1.tail.takeWhile Char.isDigit,
          r3.tail.takeWhile Char.isDigit, ?_, hne1,
          fun c hc => List.mem_takeWhile_imp hc,
          fun c hc => List.mem_takeWhile_imp hc,
          fun c hc => List.mem_takeWhile_imp hc⟩
        have e1 := List.takeWhile_append_dropWhile Char.isDigit l
        rw [← hrest1] at e1
        rw [hr1] at e1
        have e2 := List.takeWhile_append_dropWhile Char.isDigit r1.tail
        rw [← hrest2] at e2
        rw [hr3] at e2
        have e3 := List.takeWhile_append_dropWhile Char.isDigit r3.tail
        rw [← hrest3, hr5, List.append_nil] at e3
        rw [e3, e2]
        exact e1.symm

theorem parseVersionCore_head {l : List Char} {v : SemVersion}
    (h : parseVersionCore l = some v) :
    ∃ c cs, l = c :: cs ∧ c.isDigit = true := by
  obtain ⟨d1, d2, d3, hl, hne, hd1, _, _⟩ := parseVersionCore_shape h
  cases hd : d1 with
  | nil => exact absurd hd hne
  | cons c cs =>
    subst hd
    exact ⟨c, cs ++ '.' :: (d2 ++ '.' :: d3), by simpa using hl,
      hd1 c (List.mem_cons_self c _)⟩

theorem parseVersionCore_chars {l : List Char} {v : SemVersion}
    (h : parseVersionCore l = some v) :
    ∀ c ∈ l, c.isDigit = true ∨ c = '.' := by
  obtain ⟨d1, d2, d3, hl, _, hd1, hd2, hd3⟩ := parseVersionCore_shape h
  intro c hc
  rw [hl] at hc
  simp only [List.mem_append, List.mem_cons] at hc
  rcases hc with hc | hc | hc | hc | hc
  · exact Or.inl (hd1 c hc)
  · exact Or.inr hc
  · exact Or.inl (hd2 c hc)
  · exact Or.inr hc
  · exact Or.inl (hd3 c hc)

theorem not_ws_of_digit_or_dot {c : Char} (h : c.isDigit = true ∨ c = '.') :
    isWhitespaceChar c = false := by
  rcases h with h | rfl
  · by_contra hw
    rw [Bool.not_eq_false] at hw
    simp only [isWhitespaceChar, Bool.or_eq_true, decide_eq_true_eq] at hw
    rcases hw with ((rfl | rfl) | rfl) | rfl <;> simp at h
  · decide

theorem not_veq_of_digit {c : Char} (h : c.isDigit = true) :
    (c = '=' || c = 'v') = false := by
  by_contra hv
  rw [Bool.not_eq_false] at hv
  simp only [Bool.or_eq_true, decide_eq_true_eq] at hv
  rcases hv with rfl | rfl <;> simp at h

theorem ne_v_of_digit {c : Char} (h : c.isDigit = true) : c ≠ 'v' := by
  intro hv
  subst hv
  simp at h

theorem dropWhile_eq_self_of {p : Char → Bool} {l : List Char}
    (h : ∀ c ∈ l, p c = false) : l.dropWhile p = l := by
  cases l with
  | nil => rfl
  | cons c cs => simp [List.dropWhile_cons, h c (List.mem_cons_self c cs)]

theorem trimChars_eq_self {l : List Char}
    (h : ∀ c ∈ l, isWhitespaceChar c = false) : trimChars l = l := by
  unfold trimChars
  rw [dropWhile_eq_self_of h,
    dropWhile_eq_self_of (fun c hc => h c (List.mem_reverse.mp hc)),
    List.reverse_reverse]

theorem dropLeadingV_eq_self {l : List Char}
    (h : ∀ c ∈ l, c.isDigit = true ∨ c = '.') : dropLeadingV l = l := by
  cases l with
  | nil => rfl
  | cons c cs =>
    have hc := h c (List.mem_cons_self c cs)
    have : c ≠ 'v' := by
      rcases hc with hc | rfl
      · exact ne_v_of_digit hc
      · decide
    simp [dropLeadingV, this]

theorem parseVersion_mk {u : List Char} {sv : SemVersion}
    (hu : parseVersionCore u = some sv) :
    parseVersion (String.mk u) = some sv := by
  unfold parseVersion
  have hchars := parseVersionCore_chars hu
  have hdata : (String.mk u).data = u := rfl
  rw [hdata, trimChars_eq_self (fun c hc => not_ws_of_digit_or_dot (hchars c hc)),
    dropLeadingV_eq_self hchars]
  exact hu

theorem semverClean_eq {s : String} {sv : SemVersion}
    (h : parseVersion s = some sv) :
    ∃ u, semverClean s = some (String.mk u) ∧ parseVersionCore u = some sv := by
  unfold parseVersion at h
  unfold semverClean
  cases ht : trimChars s.data with
  | nil =>
    rw [ht] at h
    cases h
  | cons c cs =>
    rw [ht] at h
    by_cases hcv : c = 'v'
    · subst hcv
      rw [show dropLeadingV ('v' :: cs) = cs from by simp [dropLeadingV]] at h
      obtain ⟨c2, cs2, hcs, hdig⟩ := parseVersionCore_head h
      refine ⟨cs, ?_, h⟩
      rw [List.dropWhile_cons]
      simp only [show (('v' : Char) = '=' || ('v' : Char) = 'v') = true from by decide,
        if_true]
      rw [hcs, List.dropWhile_cons, not_veq_of_digit hdig, ← hcs]
      simp [h]
    · rw [show dropLeadingV (c :: cs) = c :: cs from by simp [dropLeadingV, hcv]] at h
      obtain ⟨c2, cs2, hcs, hdig⟩ := parseVersionCore_head h
      have hcc : c = c2 := by
        have := congrArg (fun l => l.head?) hcs
        simpa using this
      subst hcc
      refine ⟨c :: cs, ?_, h⟩
      rw [List.dropWhile_cons, not_veq_of_digit hdig]
      simp [h]

theorem checkVersion_eq_of_parse {name range v : String} {r : RangeD}
    {sv : SemVersion} (hr : parseRange range = some r)
    (hv : parseVersion v = some sv) :
    checkVersion name range v = satisfiesRange sv r := by
  obtain ⟨u, hclean, hu⟩ := semverClean_eq hv
  unfold checkVersion
  rw [hclean]
  show (semverSatisfies (String.mk u) range).getD false = satisfiesRange sv r
  unfold semverSatisfies
  rw [hr, parseVersion_mk hu]
  rfl

end FixPeerDeps

namespace FixPeerDeps

/-! Claim theorems. -/

/-- Catalog where A requires B strictly above 2.5.0 while B is installed
at 2.1.0: unsatisfied, yet the two ranges overlap. -/
def catalogIntersecting : Dependencies :=
  { dependencies :=
      [("A", { version := "1.0.0",
               peerDependencies := some [("B", ">2.5.0")] }),
       ("B", { version := "2.1.0" })] }

/-- C1: counterexample. In the catalog where A requires B at a range
strictly above 2.5.0 and B is installed at 2.1.0, the required range
and the caret range derived from the installed version intersect
(2.6.0 lies in both) while the installed version does not satisfy the
range; the claim then demands a Warning classification, but the
analysis puts the pair in the version-conflict set, its only
non-missing classification. -/
theorem intersecting_unsatisfied_pair_still_conflicts :
    (analyzePeerDependencies catalogIntersecting).versionConflicts =
      ["A requires B@>2.5.0, but 2.1.0 is installed"] ∧
    (analyzePeerDependencies catalogIntersecting).missingDeps = [] ∧
    parseRange ">2.5.0" = some [[.gt ⟨2,5,0⟩]] ∧
    parseVersion "2.1.0" = some ⟨2,1,0⟩ ∧
    satisfiesRange ⟨2,1,0⟩ [[.gt ⟨2,5,0⟩]] = false ∧
    specIntersects [[.gt ⟨2,5,0⟩]] (specDerivedRange ⟨2,1,0⟩) :=
  ⟨by decide, by decide, by decide, by decide, by decide,
    ⟨⟨2,6,0⟩, by decide, by decide⟩⟩

/-- C1 (amended): every peer pair whose installed version is known (and
nonempty) but fails checkVersion is classified as a version conflict,
regardless of whether the ranges intersect; the analysis has no Warning
classification at all. -/
theorem unsatisfied_known_version_always_conflicts (d : Dependencies)
    (e : String × DepInfo) (peers : List (String × String))
    (pr : String × String) (v : String)
    (he : e ∈ allEntries d) (hp : e.2.peerDependencies = some peers)
    (hpr : pr ∈ peers) (hfind : findInstalledVersion d pr.1 = some v)
    (hne : v ≠ "") (hchk : checkVersion pr.1 pr.2 v = false) :
    (e.1 ++ " requires " ++ pr.1 ++ "@" ++ pr.2 ++ ", but " ++ v ++
      " is installed") ∈ (analyzePeerDependencies d).versionConflicts := by
  rw [mem_versionConflicts]
  refine ⟨e, he, peers, hp, pr, hpr, ?_⟩
  unfold peerCheck
  rw [hfind]
  dsimp only []
  rw [if_neg hne, hchk]
  simp

/-- C1 (amended) witness at the intersecting-but-unsatisfied catalog. -/
theorem unsatisfied_known_version_always_conflicts_witness :
    "A requires B@>2.5.0, but 2.1.0 is installed" ∈
      (analyzePeerDependencies catalogIntersecting).versionConflicts :=
  unsatisfied_known_version_always_conflicts catalogIntersecting
    ("A", { version := "1.0.0", peerDependencies := some [("B", ">2.5.0")] })
    [("B", ">2.5.0")] ("B", ">2.5.0") "2.1.0"
    (by decide) (by decide) (by decide) (by decide) (by decide) (by decide)

/-- Catalog in which two distinct consumers both require the absent peer
C with the same range. -/
def catalogTwoConsumers : Dependencies :=
  { dependencies :=
      [("A", { version := "1.0.0",
               peerDependencies := some [("C", "^1.0.0")] }),
       ("B", { version := "1.0.0",
               peerDependencies := some [("C", "^1.0.0")] })] }

/-- C3: counterexample. Two distinct (consumer, peer) pairs, (A, C) and
(B, C), each produce a missing raw issue, but the analysis keys its
missing set by the `peer@range` string alone, so the output holds one
issue, not one per (consumer, peer) pair as claimed. -/
theorem missing_issue_not_per_consumer_pair :
    peerCheck catalogTwoConsumers "A" "C" "^1.0.0" =
      some (.missing "C@^1.0.0") ∧
    peerCheck catalogTwoConsumers "B" "C" "^1.0.0" =
      some (.missing "C@^1.0.0") ∧
    (analyzePeerDependencies catalogTwoConsumers).missingDeps =
      ["C@^1.0.0"] ∧
    (analyzePeerDependencies catalogTwoConsumers).missingDeps.length = 1 :=
  ⟨by decide, by decide, by decide, by decide⟩

/-- C3 (amended): the missing list holds exactly one entry per distinct
`peer@range` string arising from some (consumer, peer) pair whose peer
has no installed version: it is duplicate-free, and a string is in it
precisely when some catalog entry generates it as a missing issue.
Consumer identity is not part of the key. -/
theorem missing_unique_per_spec_string (d : Dependencies) :
    (analyzePeerDependencies d).missingDeps.Nodup ∧
    ∀ s, s ∈ (analyzePeerDependencies d).missingDeps ↔
      ∃ e ∈ allEntries d, ∃ peers, e.2.peerDependencies = some peers ∧
        ∃ pr ∈ peers, peerCheck d e.1 pr.1 pr.2 = some (.missing s) := by
  constructor
  · exact nodup_sortStrings (nodup_dedupFirst _)
  · intro s
    exact mem_missingDeps

/-- C4: when the installed version of a peer parses and satisfies the
required range under plain semver range semantics, the per-pair check
emits no issue; the analysis of v1.1.12 consults no allow-list in this
path, so optionality cannot change the outcome. -/
theorem satisfied_peer_emits_no_issue (d : Dependencies)
    (consumer peer range v : String) (r : RangeD) (sv : SemVersion)
    (hfind : findInstalledVersion d peer = some v)
    (hr : parseRange range = some r) (hv : parseVersion v = some sv)
    (hsat : satisfiesRange sv r = true) :
    peerCheck d consumer peer range = none := by
  have hne : v ≠ "" := by
    intro he
    subst he
    have h0 : parseVersion "" = none := by decide
    rw [h0] at hv
    cases hv
  unfold peerCheck
  rw [hfind]
  dsimp only []
  rw [if_neg hne, checkVersion_eq_of_parse hr hv, hsat]
  simp

/-- Scenario 3 catalog: A requires B at caret 2.0.0 and B is 2.1.0. -/
def catalogSatisfied : Dependencies :=
  { dependencies :=
      [("A", { version := "1.0.0",
               peerDependencies := some [("B", "^2.0.0")] }),
       ("B", { version := "2.1.0" })] }

/-- C4 witness on the Scenario 3 catalog: no issue for the pair and the
whole analysis comes back clean. -/
theorem satisfied_peer_emits_no_issue_witness :
    peerCheck catalogSatisfied "A" "B" "^2.0.0" = none ∧
    analyzePeerDependencies catalogSatisfied =
      { missingDeps := [], versionConflicts := [], hasIssues := false } :=
  ⟨satisfied_peer_emits_no_issue catalogSatisfied "A" "B" "^2.0.0" "2.1.0"
      [[.ge ⟨2,0,0⟩, .lt ⟨3,0,0⟩]] ⟨2,1,0⟩
      (by decide) (by decide) (by decide) (by decide),
    by decide⟩

/-- Catalog whose only peer requirement names a denylisted scope. -/
def catalogIgnoredPeer : Dependencies :=
  { dependencies :=
      [("A", { version := "1.0.0",
               peerDependencies := some [("@types/node", "^20.0.0")] })] }

/-- C6: the IGNORE_PATTERNS denylist matches the peer, the v1.1.0
analysis honours it and reports nothing, but the v1.1.12 analysis never
consults the declared constant and still emits a missing issue for the
denylisted peer. -/
theorem ignored_peer_still_reported :
    matchesIgnorePattern "@types/node" = true ∧
    (analyzePeerDependencies catalogIgnoredPeer).missingDeps =
      ["@types/node@^20.0.0"] ∧
    V110.analyzeIssues
      [("A", { version := "1.0.0",
               peerDependencies := some [("@types/node", "^20.0.0")] })] =
      some [] :=
  ⟨by decide, by decide, by decide⟩

/-- Metadata oracle for the coercion counterexample: only package X has
a peer map, requiring P at caret 1.0.0. -/
def fsCoerce : String → Option (Option (List (String × String))) :=
  fun n =>
    if n = "X" then some (some [("P", "^1.0.0")])
    else if n = "P" then some none
    else none

/-- Manifest installing X at 1.0.0 and P at the tag latest. -/
def pjCoerce : PackageJson :=
  { dependencies := some [("X", "1.0.0"), ("P", "latest")] }

/-- C2: counterexample. The installed version string of P is the tag
latest, which has no digits, so coercion fails; the claim demands a
Conflict classification, but analyzeDependencies reports no missing
peer and no conflict at all: the unparseable pair is silently dropped. -/
theorem coercion_failure_is_silently_skipped :
    semverCoerce "latest" = none ∧
    findInstalledPeerDep (buildDeps pjCoerce) "P" = some "P@latest" ∧
    analyzeDependencies fsCoerce pjCoerce = ([], []) :=
  ⟨by decide, by decide, by decide⟩

/-- C2 (amended): in analyzeDependencies, a pair whose installed peer is
found but where coercion of the extracted installed version or of the
required version fails contributes nothing: the peer loop continues
with both accumulators unchanged, so the pair is neither a Conflict nor
a Missing issue. -/
theorem coercion_failure_pair_skipped (deps : List String)
    (name peerName requiredVersion : String)
    (rest : List (String × String)) (miss : List String)
    (conf : List ConflictRecord) (dep : String)
    (hfind : findInstalledPeerDep deps peerName = some dep)
    (hco : (splitSecond dep).bind semverCoerce = none ∨
      semverCoerce requiredVersion = none) :
    procPeers deps name ((peerName, requiredVersion) :: rest) miss conf =
      procPeers deps name rest miss conf := by
  show (match findInstalledPeerDep deps peerName with
    | none =>
      procPeers deps name rest
        (setAdd miss (peerName ++ "@" ++ requiredVersion)) conf
    | some installedPeerDep =>
      match splitSecond installedPeerDep with
      | none => procPeers deps name rest miss conf
      | some installedVersion =>
        match semverCoerce installedVersion, semverCoerce requiredVersion with
        | some cleanInstalled, some _ =>
          match parseRange requiredVersion with
          | none => (miss, conf)
          | some r =>
            if satisfiesRange cleanInstalled r then
              procPeers deps name rest miss conf
            else
              procPeers deps name rest miss
                (conf ++ [{ package := name, peer := peerName,
                            required := requiredVersion,
                            installed := installedVersion }])
        | _, _ => procPeers deps name rest miss conf) =
    procPeers deps name rest miss conf
  rw [hfind]
  dsimp only []
  cases hsplit2 : splitSecond dep with
  | none => rfl
  | some iv =>
    dsimp only []
    rcases hco with hco | hco
    · rw [hsplit2] at hco
      simp only [Option.some_bind] at hco
      rw [hco]
    · cases hci : semverCoerce iv with
      | none => rfl
      | some ci => rw [hco]

/-- C2 (amended) witness on the counterexample catalog. -/
theorem coercion_failure_pair_skipped_witness :
    findInstalledPeerDep ["X@1.0.0", "P@latest"] "P" = some "P@latest" ∧
    (splitSecond "P@latest").bind semverCoerce = none ∧
    procPeers ["X@1.0.0", "P@latest"] "X" [("P", "^1.0.0")] [] [] =
      procPeers ["X@1.0.0", "P@latest"] "X" [] [] [] :=
  ⟨by decide, by decide,
    coercion_failure_pair_skipped ["X@1.0.0", "P@latest"] "X" "P" "^1.0.0"
      [] [] [] "P@latest" (by decide) (Or.inl (by decide))⟩

/-- Entrywise degrading of one package commutes with loading. -/
theorem processDeps_degrade (packageManager p : String)
    (meta meta2 : String → Option (List (String × String)))
    (hof : ∀ q, q ≠ p → meta2 q = meta q) (hp : meta2 p = none)
    (dk : Option (List (String × String))) :
    processDeps packageManager meta2 dk =
      (processDeps packageManager meta dk).map (degradeEntry p) := by
  cases dk with
  | none => rfl
  | some l =>
    unfold processDeps
    rw [List.map_map]
    apply List.map_congr_left
    intro nv _
    by_cases h : nv.1 = p
    · simp only [Function.comp_apply, degradeEntry, h, hp, if_pos]
      rw [ite_self]
    · simp only [Function.comp_apply, degradeEntry, if_neg h, hof nv.1 h]

/-- C5: the dependency-loading phase returns an error exactly when the
manifest is unreadable; and failing the metadata fetch of one package
only degrades that package to an unset peer map, leaving every other
entry of the catalog untouched. -/
theorem metadata_failure_nonfatal (packageManager p : String)
    (meta meta2 : String → Option (List (String × String)))
    (hof : ∀ q, q ≠ p → meta2 q = meta q) (hp : meta2 p = none)
    (pj : PackageJson) :
    getDependencies packageManager meta2 (some pj) =
      .ok (degradeCatalog p (loadCatalog packageManager meta pj)) ∧
    ∀ (meta3 : String → Option (List (String × String)))
      (manifest : Option PackageJson),
      (getDependencies packageManager meta3 manifest).isOk =
        manifest.isSome := by
  constructor
  · show Except.ok (loadCatalog packageManager meta2 pj) = _
    unfold loadCatalog degradeCatalog
    rw [processDeps_degrade packageManager p meta meta2 hof hp pj.dependencies,
      processDeps_degrade packageManager p meta meta2 hof hp pj.devDependencies,
      processDeps_degrade packageManager p meta meta2 hof hp pj.peerDependencies]
  · intro meta3 manifest
    cases manifest <;> rfl

/-- Working metadata oracle for the C5 witness. -/
def metaW : String → Option (List (String × String)) :=
  fun n => if n = "react" then some [("react-dom", "^18.0.0")] else none

/-- Same oracle with the fetch for react failing. -/
def metaW2 : String → Option (List (String × String)) :=
  fun n => if n = "react" then none else metaW n

/-- Manifest for the C5 witness. -/
def pjW : PackageJson :=
  { dependencies := some [("react", "^18.2.0"), ("lodash", "4.17.21")] }

/-- C5 witness: concrete catalog, a failing fetch for one package, and
the degraded-but-successful load; loading with no manifest errors. -/
theorem metadata_failure_nonfatal_witness :
    getDependencies "yarn" metaW2 (some pjW) =
      .ok (degradeCatalog "react" (loadCatalog "yarn" metaW pjW)) ∧
    (getDependencies "yarn" metaW2 none).isOk = false :=
  ⟨(metadata_failure_nonfatal "yarn" "react" metaW metaW2
      (fun q hq => if_neg hq) rfl pjW).1,
    rfl⟩

/-- C9: for every package manager the selected install command is a
plain string, so its cmd and args properties are undefined; whenever
the parsed install list is nonempty the install step therefore ends in
the fatal error branch no matter how the external installer behaves. -/
theorem autofix_install_step_always_fatal
    (exec : String → List String → Bool) (packageManager : String)
    (missingDeps : List String)
    (h : missingDeps.filterMap parseSpec ≠ []) :
    (∃ s, selectCommand packageManager = .str s) ∧
    (selectCommand packageManager).cmdProp = none ∧
    (selectCommand packageManager).argsProp = none ∧
    autoFixStep exec packageManager missingDeps = .fatalError := by
  refine ⟨⟨(List.lookup packageManager commandTable).getD "npm install",
    rfl⟩, rfl, rfl, ?_⟩
  have hne : missingDeps ≠ [] := by
    intro h0
    subst h0
    exact h rfl
  unfold autoFixStep
  rw [if_neg hne]
  dsimp only []
  rw [if_neg h]
  rfl

/-- C9 witness: one perfectly ordinary missing dependency, an installer
oracle that would accept anything, and the step is still fatal. -/
theorem autofix_install_step_always_fatal_witness :
    ["react@^18.0.0"].filterMap parseSpec ≠ [] ∧
    autoFixStep (fun _ _ => true) "npm" ["react@^18.0.0"] = .fatalError :=
  ⟨by decide,
    (autofix_install_step_always_fatal (fun _ _ => true) "npm"
      ["react@^18.0.0"] (by decide)).2.2.2⟩

theorem jsSplitChars_cons (sep c : Char) (cs : List Char) :
    jsSplitChars sep (c :: cs) =
      if c = sep then [] :: jsSplitChars sep cs
      else
        match jsSplitChars sep cs with
        | [] => [[c]]
        | g :: gs => (c :: g) :: gs := rfl

theorem jsSplitChars_no_sep {sep : Char} :
    ∀ {l : List Char}, sep ∉ l → jsSplitChars sep l = [l] := by
  intro l
  induction l with
  | nil => intro _; rfl
  | cons c cs ih =>
    intro h
    have hc : ¬(c = sep) := fun hh => h (hh ▸ List.mem_cons_self c cs)
    rw [jsSplitChars_cons, if_neg hc, ih fun hm => h (List.mem_cons_of_mem c hm)]

theorem jsSplitChars_append {sep : Char} {l1 l2 : List Char}
    (h : sep ∉ l1) :
    jsSplitChars sep (l1 ++ sep :: l2) = l1 :: jsSplitChars sep l2 := by
  induction l1 with
  | nil =>
    show jsSplitChars sep (sep :: l2) = [] :: jsSplitChars sep l2
    rw [jsSplitChars_cons, if_pos rfl]
  | cons c cs ih =>
    have hc : ¬(c = sep) := fun hh => h (hh ▸ List.mem_cons_self c cs)
    have h2 : sep ∉ cs := fun hm => h (List.mem_cons_of_mem c hm)
    show jsSplitChars sep (c :: (cs ++ sep :: l2)) =
      (c :: cs) :: jsSplitChars sep l2
    rw [jsSplitChars_cons, if_neg hc, ih h2]

theorem stringMk_inj {a b : List Char} (h : String.mk a = String.mk b) :
    a = b :=
  congrArg String.data h

/-- C10: formatting a scoped peer as name at range and re-parsing by
splitting at the separator does not round-trip: the parsed name
component is the empty string, the parsed version component is the name
with its leading at sign removed (a fragment of the name, not the
range), the derived install specifier collapses to the bare name and
loses the range, and the parsed pair differs from the original
(name, range) pair. -/
theorem scoped_spec_roundtrip_fails (rest range : List Char)
    (hr : rest ≠ []) (h1 : '@' ∉ rest) (h2 : '@' ∉ range) :
    String.mk ('@' :: rest ++ '@' :: range) =
      String.mk ('@' :: rest) ++ "@" ++ String.mk range ∧
    splitName (String.mk ('@' :: rest ++ '@' :: range)) = "" ∧
    splitSecond (String.mk ('@' :: rest ++ '@' :: range)) =
      some (String.mk rest) ∧
    parseSpec (String.mk ('@' :: rest ++ '@' :: range)) =
      some (String.mk ('@' :: rest)) ∧
    (splitName (String.mk ('@' :: rest ++ '@' :: range)),
        splitSecond (String.mk ('@' :: rest ++ '@' :: range))) ≠
      (String.mk ('@' :: rest), some (String.mk range)) ∧
    String.mk ('@' :: rest) ≠ String.mk ('@' :: rest ++ '@' :: range) := by
  have hsplit : jsSplitChars '@' ('@' :: rest ++ '@' :: range) =
      [[], rest, range] := by
    show jsSplitChars '@' ('@' :: (rest ++ '@' :: range)) = _
    unfold jsSplitChars
    rw [if_pos rfl, jsSplitChars_append h1, jsSplitChars_no_sep h2]
  have hdata : (String.mk ('@' :: rest ++ '@' :: range)).data =
      '@' :: rest ++ '@' :: range := rfl
  refine ⟨?_, ?_, ?_, ?_, ?_, ?_⟩
  · show String.mk ('@' :: rest ++ '@' :: range) =
      String.mk ((('@' :: rest) ++ ['@']) ++ range)
    rw [List.append_assoc]
    rfl
  · unfold splitName
    rw [hdata, hsplit]
    rfl
  · unfold splitSecond
    rw [hdata, hsplit]
    rfl
  · unfold parseSpec
    rw [hdata, hsplit]
    dsimp only []
    rw [show ([[], rest, range] : List (List Char))[1]? = some rest from rfl,
      show ([[], rest, range] : List (List Char)).headD [] = [] from rfl]
    dsimp only []
    rw [if_pos hr]
    have hres : ¬(String.mk ([] : List Char) ++ "@" ++ String.mk rest = "") := by
      intro hq
      have hd : ('@' :: rest : List Char) = [] := congrArg String.data hq
      cases hd
    rw [if_neg hres]
    rfl
  · intro hq
    have hfst := congrArg Prod.fst hq
    unfold splitName at hfst
    rw [hdata, hsplit] at hfst
    have hd : ([] : List Char) = '@' :: rest := stringMk_inj hfst
    cases hd
  · intro hq
    have := congrArg List.length (stringMk_inj hq)
    simp only [List.length_cons, List.length_append] at this
    omega

/-- C10 witness at a concrete scoped package. -/
theorem scoped_spec_roundtrip_fails_witness :
    parseSpec (String.mk ('@' :: "mui/material".data ++ '@' :: "^5.0.0".data)) =
      some (String.mk ('@' :: "mui/material".data)) ∧
    parseSpec "@mui/material@^5.0.0" = some "@mui/material" :=
  ⟨(scoped_spec_roundtrip_fails "mui/material".data "^5.0.0".data
      (by decide) (by decide) (by decide)).2.2.2.1,
    by decide⟩

end FixPeerDeps

namespace V110

open FixPeerDeps

theorem chunksAux_flatten {α : Type} :
    ∀ (fuel : Nat) (l : List α), l.length ≤ fuel →
      (chunksAux fuel l).flatten = l := by
  intro fuel
  induction fuel with
  | zero =>
    intro l hl
    cases l with
    | nil => rfl
    | cons x xs => simp at hl
  | succ f ih =>
    intro l hl
    cases l with
    | nil => rfl
    | cons x xs =>
      have hlen : ((x :: xs).drop chunkSize).length ≤ f := by
        simp only [List.length_drop, List.length_cons, chunkSize]
        simp only [List.length_cons] at hl
        omega
      show (x :: xs).take chunkSize ++
        (chunksAux f ((x :: xs).drop chunkSize)).flatten = x :: xs
      rw [ih _ hlen, List.take_append_drop]

theorem chunksAux_mem_le {α : Type} :
    ∀ (fuel : Nat) (l : List α) (c : List α),
      c ∈ chunksAux fuel l → c.length ≤ chunkSize := by
  intro fuel
  induction fuel with
  | zero =>
    intro l c hc
    cases l with
    | nil => cases hc
    | cons x xs => cases hc
  | succ f ih =>
    intro l c hc
    cases l with
    | nil => cases hc
    | cons x xs =>
      rcases List.mem_cons.mp hc with rfl | hmem
      · rw [List.length_take]
        exact Nat.min_le_left _ _
      · exact ih _ c hmem

theorem chunksAux_nil {α : Type} (fuel : Nat) :
    chunksAux fuel ([] : List α) = [] := by
  cases fuel <;> rfl

theorem chunksAux_succ_cons {α : Type} (f : Nat) (x : α) (xs : List α) :
    chunksAux (f + 1) (x :: xs) =
      (x :: xs).take chunkSize :: chunksAux f ((x :: xs).drop chunkSize) :=
  rfl

theorem chunksAux_full {α : Type} :
    ∀ (fuel : Nat) (l : List α), l.length ≤ fuel →
      ∀ j, j + 1 < (chunksAux fuel l).length →
        ((chunksAux fuel l)[j]?.getD []).length = chunkSize := by
  intro fuel
  induction fuel with
  | zero =>
    intro l hl j hj
    cases l with
    | nil => simp [chunksAux_nil] at hj
    | cons x xs => simp at hl
  | succ f ih =>
    intro l hl j hj
    cases l with
    | nil => simp [chunksAux_nil] at hj
    | cons x xs =>
      have hlen : ((x :: xs).drop chunkSize).length ≤ f := by
        simp only [List.length_drop, List.length_cons, chunkSize]
        simp only [List.length_cons] at hl
        omega
      rw [chunksAux_succ_cons] at hj
      cases j with
      | zero =>
        have hrest : chunksAux f ((x :: xs).drop chunkSize) ≠ [] := by
          intro hnil
          rw [hnil] at hj
          simp at hj
        have hdrop : (x :: xs).drop chunkSize ≠ [] := by
          intro hnil
          exact hrest (by rw [hnil]; exact chunksAux_nil f)
        have hlen0 : ((x :: xs).drop chunkSize).length ≠ 0 := by
          intro h0
          exact hdrop (List.length_eq_zero.mp h0)
        rw [List.length_drop] at hlen0
        rw [chunksAux_succ_cons]
        simp only [List.getElem?_cons_zero, Option.getD_some]
        rw [List.length_take]
        exact Nat.min_eq_left (by omega)
      | succ j2 =>
        have hj2 : j2 + 1 < (chunksAux f ((x :: xs).drop chunkSize)).length := by
          simp only [List.length_cons] at hj
          omega
        rw [chunksAux_succ_cons]
        simp only [List.getElem?_cons_succ]
        exact ih ((x :: xs).drop chunkSize) hlen j2 hj2

/-- C7: v1.1.0 autoFix emits one install specifier per critical error;
the batches are successive slices whose concatenation in order is
exactly the full specifier list (order preserved); every batch holds at
most ten specifiers and every batch except possibly the last exactly
ten. -/
theorem batches_are_chunks_of_ten (issues : List Issue) :
    (batches issues).flatten =
      (issues.filter fun i => !i.isOptional).map spec ∧
    (depsToInstall issues).length =
      (issues.filter fun i => !i.isOptional).length ∧
    (∀ c ∈ batches issues, c.length ≤ chunkSize) ∧
    ∀ j, j + 1 < (batches issues).length →
      ((batches issues)[j]?.getD []).length = chunkSize := by
  refine ⟨?_, ?_, ?_, ?_⟩
  · exact chunksAux_flatten _ _ (Nat.le_refl _)
  · exact List.length_map _ _
  · intro c hc
    exact chunksAux_mem_le _ _ c hc
  · intro j hj
    exact chunksAux_full _ _ (Nat.le_refl _) j hj

/-- Twenty-five critical issues with distinct peers. -/
def issues25 : List Issue :=
  (List.range 25).map fun k =>
    { packageName := "A", peer := "p" ++ toString k, required := "^1.0.0",
      current := "missing", isOptional := false }

/-- C7 witness: for 25 errors the loop emits exactly three batches of
sizes ten, ten and five, whose concatenation is the specifier list. -/
theorem batches_are_chunks_of_ten_witness :
    (batches issues25).flatten =
      (issues25.filter fun i => !i.isOptional).map spec ∧
    (batches issues25).map List.length = [10, 10, 5] :=
  ⟨(batches_are_chunks_of_ten issues25).1, by decide⟩

theorem runBatches_eq_takeWhile (exec : List String → Bool) :
    ∀ bs : List (List String),
      (runBatches exec bs).1 = bs.takeWhile exec := by
  intro bs
  induction bs with
  | nil => rfl
  | cons b rest ih =>
    by_cases hb : exec b
    · simp [runBatches, List.takeWhile_cons, hb, ih]
    · simp [runBatches, List.takeWhile_cons, hb]

end V110

namespace V117

open FixPeerDeps

/-- C8: the install block makes at most two attempts; whenever the
first attempt fails, the attempt sequence is exactly the original
argument list followed by the relaxed list in which every argument
containing peer has been dropped; the block is fatal precisely when
both attempts fail; and in the batched install loop the batches
recorded as done are exactly the leading prefix of successes, which a
later failure does not remove. -/
theorem install_retry_once_relaxed (exec : String → List String → Bool)
    (cmd : String) (args depsToInstall : List String)
    (exec2 : List String → Bool) (bs : List (List String)) :
    (installAttempts exec cmd args depsToInstall).length ≤ 2 ∧
    (exec cmd (args ++ depsToInstall) = false →
      installAttempts exec cmd args depsToInstall =
        [args ++ depsToInstall, relaxArgs args ++ depsToInstall]) ∧
    (installWithRetry exec cmd args depsToInstall = .fatal ↔
      exec cmd (args ++ depsToInstall) = false ∧
        exec cmd (relaxArgs args ++ depsToInstall) = false) ∧
    (V110.runBatches exec2 bs).1 = bs.takeWhile exec2 := by
  refine ⟨?_, ?_, ?_, V110.runBatches_eq_takeWhile exec2 bs⟩
  · unfold installAttempts
    by_cases h1 : exec cmd (args ++ depsToInstall) <;> simp [h1]
  · intro h1
    unfold installAttempts
    rw [h1]
    simp
  · unfold installWithRetry
    by_cases h1 : exec cmd (args ++ depsToInstall) <;>
      by_cases h2 : exec cmd (relaxArgs args ++ depsToInstall) <;>
      simp [h1, h2]

/-- C8 witness: with a failing installer the npm flag set is retried
once without its two peer flags; in the batch loop a failure on the
second batch leaves exactly the first batch done. -/
theorem install_retry_once_relaxed_witness :
    installAttempts (fun _ _ => false) "npm"
        ["install", "--save-peer", "--legacy-peer-deps"] ["react@^18.0.0"] =
      [["install", "--save-peer", "--legacy-peer-deps", "react@^18.0.0"],
        ["install", "react@^18.0.0"]] ∧
    (V110.runBatches (fun b => decide (b ≠ ["y@^1.0.0"]))
        [["x@^1.0.0"], ["y@^1.0.0"], ["z@^1.0.0"]]).1 = [["x@^1.0.0"]] := by
  constructor
  · have h := (install_retry_once_relaxed (fun _ _ => false) "npm"
      ["install", "--save-peer", "--legacy-peer-deps"] ["react@^18.0.0"]
      (fun _ => true) []).2.1 (by decide)
    rw [h]
    decide
  · have h := (install_retry_once_relaxed (fun _ _ => false) "npm" [] []
      (fun b => decide (b ≠ ["y@^1.0.0"]))
      [["x@^1.0.0"], ["y@^1.0.0"], ["z@^1.0.0"]]).2.2.2
    rw [h]
    decide

end V117
